import Mathlib

/-!
Verification of the core algorithms of the yangon-ybs-guide repository:
the transfer-capped breadth-first path search (`performBFS`) and the
longest-match stop-name extractor (`extractStopsFromText`).

The embedding mirrors the TypeScript source.  The BFS `while` loop is
embedded as a fuel-indexed structural recursion (`bfsLoopFuel`); a
separate theorem shows the fuel bound `bfsFuel` always suffices, which
is the termination argument of the original loop.  The JavaScript
`Array.prototype.sort` (a stable sort) is embedded as `insertionSort`,
which is stable; for total preorder comparators a stable sort has a
unique output, so the embedding is observationally faithful.
-/

namespace YBS

/-- A bus route, as in `types.ts`: id, display color, optional operator,
ordered stop-name list. -/
structure BusRoute where
  id : String
  color : String
  operator : Option String
  stops : List String
deriving DecidableEq

/-- One ride segment of an itinerary. -/
structure PathStep where
  route : BusRoute
  fromStop : String
  toStop : String
deriving DecidableEq

/-- A completed itinerary with its transfer count. -/
structure SearchResult where
  steps : List PathStep
  transferCount : Nat
deriving DecidableEq

/-- A queued partial path of the BFS. -/
structure QueueEntry where
  currentStop : String
  path : List PathStep
deriving DecidableEq

/-- `const MAX_TRANSFERS = 2`. -/
def MAX_TRANSFERS : Nat := 2

/-- The state threaded through one pass over the routes at the current
stop: visited set, queue, accumulated results, and whether the inner
`for` loop hit the result cap and broke out. -/
structure BfsState where
  visited : List String
  queue : List QueueEntry
  results : List SearchResult
  halted : Bool
deriving DecidableEq

/-- The inner `for (const nextStop of route.stops)` loop: every stop of
the route not yet globally visited is marked visited and a partial path
extended by `(route, currentStop, nextStop)` is enqueued. -/
def expandStops (route : BusRoute) (currentStop : String) (path : List PathStep) :
    List String → List String → List QueueEntry → List String × List QueueEntry
  | [], visited, queue => (visited, queue)
  | nextStop :: rest, visited, queue =>
    if nextStop ∈ visited then
      expandStops route currentStop path rest visited queue
    else
      expandStops route currentStop path rest (nextStop :: visited)
        (queue ++ [⟨nextStop, path ++ [⟨route, currentStop, nextStop⟩]⟩])

/-- The `for (const route of availableRoutes)` loop body: skip routes
already used on this path; if the route reaches `dest`, emit a result
and break once five results exist; otherwise (and when not breaking)
expand to unvisited stops when fewer than `MAX_TRANSFERS` steps were
taken. -/
def processRoutes (dest currentStop : String) (path : List PathStep) :
    List BusRoute → List String → List QueueEntry → List SearchResult → BfsState
  | [], visited, queue, results => ⟨visited, queue, results, false⟩
  | route :: rest, visited, queue, results =>
    if path.any (fun step => step.route.id == route.id) then
      processRoutes dest currentStop path rest visited queue results
    else
      let results' :=
        if route.stops.contains dest then
          let finalPath := path ++ [⟨route, currentStop, dest⟩]
          results ++ [⟨finalPath, finalPath.length - 1⟩]
        else results
      if route.stops.contains dest ∧ 5 ≤ results'.length then
        ⟨visited, queue, results', true⟩
      else
        let vq :=
          if path.length < MAX_TRANSFERS then
            expandStops route currentStop path route.stops visited queue
          else (visited, queue)
        processRoutes dest currentStop path rest vq.1 vq.2 results'

/-- The `while (queue.length > 0)` loop, indexed by fuel.  `none` means
the fuel ran out; `bfsFuel_sufficient` below shows this never happens
for the fuel used by `bfsCollect`. -/
def bfsLoopFuel (allRoutes : List BusRoute) (dest : String) :
    Nat → List QueueEntry → List String → List SearchResult → Option (List SearchResult)
  | 0, _, _, _ => none
  | _ + 1, [], _, results => some results
  | fuel + 1, entry :: rest, visited, results =>
    if MAX_TRANSFERS + 1 < entry.path.length then some results
    else
      let availableRoutes := allRoutes.filter (fun r => r.stops.contains entry.currentStop)
      let st := processRoutes dest entry.currentStop entry.path availableRoutes visited rest results
      if 5 ≤ st.results.length then some st.results
      else bfsLoopFuel allRoutes dest fuel st.queue st.visited st.results

/-- All stop names mentioned by any route. -/
def stopsUniverse (allRoutes : List BusRoute) : Finset String :=
  (allRoutes.flatMap BusRoute.stops).toFinset

/-- Decreasing measure of the loop: every enqueue first moves a stop of
the universe out of the unvisited set, so twice the unvisited count plus
the queue length strictly drops at each iteration. -/
def bfsMeasure (allRoutes : List BusRoute) (queue : List QueueEntry) (visited : List String) : Nat :=
  2 * ((stopsUniverse allRoutes) \ visited.toFinset).card + queue.length

/-- Fuel that always suffices for the whole search. -/
def bfsFuel (allRoutes : List BusRoute) : Nat :=
  2 * (stopsUniverse allRoutes).card + 2

/-- The results in discovery order: the value of `finalResults` when the
loop of `performBFS` in the source exits. -/
def bfsCollect (allRoutes : List BusRoute) (start dest : String) : List SearchResult :=
  (bfsLoopFuel allRoutes dest (bfsFuel allRoutes) [⟨start, []⟩] [start] []).getD []

/-- `finalResults.sort((a, b) => a.transferCount - b.transferCount)`:
a stable ascending sort by transfer count. -/
def sortResults (l : List SearchResult) : List SearchResult :=
  l.insertionSort (fun a b => a.transferCount ≤ b.transferCount)

/-- `performBFS` of the source: run the search, then sort the results
ascending by transfer count. -/
def performBFS (allRoutes : List BusRoute) (start dest : String) : List SearchResult :=
  sortResults (bfsCollect allRoutes start dest)

/-! ### The entity extractor -/

/-- `text.trim()`: strip whitespace from both ends. -/
def jsTrim (l : List Char) : List Char :=
  ((l.dropWhile Char.isWhitespace).reverse.dropWhile Char.isWhitespace).reverse

/-- The pattern occurs in the text starting at position `i`. -/
def occursAt (pat text : List Char) (i : Nat) : Bool :=
  pat.isPrefixOf (text.drop i)

/-- `text.indexOf(pat)`: the first position where `pat` occurs. -/
def jsIndexOf (text pat : List Char) : Option Nat :=
  (List.range (text.length + 1)).find? (occursAt pat text)

/-- `text.includes(pat)`: substring containment. -/
def jsIncludes (text pat : List Char) : Bool :=
  (jsIndexOf text pat).isSome

/-- `text.substring(a, b)`: clamps both arguments to the length and
swaps them when given in the wrong order. -/
def jsSubstring (l : List Char) (a b : Nat) : List Char :=
  let a' := min a l.length
  let b' := min b l.length
  (l.drop (min a' b')).take (max a' b' - min a' b')

/-- A matched vocabulary entry together with its first occurrence
position in the text. -/
structure FoundStop where
  name : String
  index : Nat
deriving DecidableEq

/-- The overlap test of the source: the new match starts inside an
accepted range, or ends inside an accepted range. -/
def overlapsExisting (found : List FoundStop) (name : String) (index : Nat) : Bool :=
  found.any fun s =>
    (decide (s.index ≤ index) && decide (index < s.index + s.name.length)) ||
    (decide (s.index < index + name.length) && decide (index + name.length ≤ s.index + s.name.length))

/-- The `sortedNames.forEach` loop: record each vocabulary entry present
in the text at its first occurrence, unless it overlaps an already
accepted candidate. -/
def candidateScan (text : List Char) : List String → List FoundStop → List FoundStop
  | [], found => found
  | name :: rest, found =>
    match jsIndexOf text name.toList with
    | none => candidateScan text rest found
    | some index =>
      if overlapsExisting found name index then candidateScan text rest found
      else candidateScan text rest (found ++ [⟨name, index⟩])

/-- `[...allStopNames].sort((a, b) => b.length - a.length)`: stable sort
by descending name length. -/
def sortNamesDesc (names : List String) : List String :=
  names.insertionSort (fun a b => b.length ≤ a.length)

/-- The accepted candidates of the extractor, in acceptance order. -/
def acceptedCandidates (text : String) (allStopNames : List String) : List FoundStop :=
  candidateScan (jsTrim text.toList) (sortNamesDesc allStopNames) []

/-- `foundStops.sort((a, b) => a.index - b.index)`: stable sort by
position in the text. -/
def sortByIndex (l : List FoundStop) : List FoundStop :=
  l.insertionSort (fun a b => a.index ≤ b.index)

/-- `["ကနေ", "မှ"]`, the origin markers. -/
def fromKeywords : List String := ["ကနေ", "မှ"]

/-- `["ကို", "သို့", "သွားချင်တာ"]`, the destination markers. -/
def toKeywords : List String := ["ကို", "သို့", "သွားချင်တာ"]

/-- The extractor's result object `{ start, end }`. -/
structure ExtractedQuery where
  start : Option String
  end_ : Option String
deriving DecidableEq

/-- `extractStopsFromText` of the source.  Returns `none` (the literal
`return null`) when no vocabulary entry is recognized. -/
def extractStopsFromText (text : String) (allStopNames : List String) : Option ExtractedQuery :=
  let normalizedText := jsTrim text.toList
  let foundStops := sortByIndex (acceptedCandidates text allStopNames)
  match foundStops with
  | [] => none
  | [only] =>
    let textAfter := normalizedText.drop (only.index + only.name.length)
    let isDestination := toKeywords.any fun k => jsIncludes textAfter k.toList
    if isDestination then some ⟨none, some only.name⟩
    else some ⟨some only.name, none⟩
  | firstStop :: secondStop :: _ =>
    let textAfterFirst :=
      jsSubstring normalizedText (firstStop.index + firstStop.name.length) secondStop.index
    let hasFromMarker := fromKeywords.any fun k => jsIncludes textAfterFirst k.toList
    if hasFromMarker then some ⟨some firstStop.name, some secondStop.name⟩
    else some ⟨some firstStop.name, some secondStop.name⟩

/-! ### Invariant predicates and demonstration networks -/

/-- `pathOk s steps t`: the steps form a connected itinerary from `s`
to `t`, each step riding its route between two stops of that route. -/
def pathOk : String → List PathStep → String → Prop
  | s, [], t => s = t
  | s, step :: rest, t =>
    step.fromStop = s ∧ step.fromStop ∈ step.route.stops ∧
      step.toStop ∈ step.route.stops ∧ pathOk step.toStop rest t

/-- Invariant of every queued partial path: it is a connected path from
the start to its current stop, uses at most `MAX_TRANSFERS` steps, and
never rides the same route twice. -/
def entryOk (start : String) (e : QueueEntry) : Prop :=
  pathOk start e.path e.currentStop ∧ e.path.length ≤ MAX_TRANSFERS ∧
    (e.path.map (fun st => st.route.id)).Nodup

/-- Invariant of every emitted result: a nonempty connected itinerary
from start to destination, at most `MAX_TRANSFERS + 1` steps, no route
ridden twice. -/
def resultOk (start dest : String) (r : SearchResult) : Prop :=
  r.steps ≠ [] ∧ pathOk start r.steps dest ∧
    r.steps.length ≤ MAX_TRANSFERS + 1 ∧
    (r.steps.map (fun st => st.route.id)).Nodup

/-- Two matched candidates occupy overlapping character ranges. -/
def rangesOverlap (a b : FoundStop) : Prop :=
  a.index < b.index + b.name.length ∧ b.index < a.index + a.name.length

/-- Demonstration route 1 of the spec scenario: stops `[X, Y]`. -/
def routeXY : BusRoute := ⟨"1", "red", none, ["X", "Y"]⟩

/-- Demonstration route 2 of the spec scenario: stops `[Y, Z]`. -/
def routeYZ : BusRoute := ⟨"2", "blue", none, ["Y", "Z"]⟩

/-- The two-route demonstration network of the spec scenario. -/
def demoRoutes : List BusRoute := [routeXY, routeYZ]

/-! ### Lemmas about connected paths -/

lemma pathOk_append {start mid : String} {path : List PathStep} (step : PathStep)
    (h : pathOk start path mid) (h1 : step.fromStop = mid)
    (h2 : step.fromStop ∈ step.route.stops) (h3 : step.toStop ∈ step.route.stops) :
    pathOk start (path ++ [step]) step.toStop := by
  induction path generalizing start with
  | nil =>
    have hs : start = mid := h
    subst hs
    exact ⟨h1, h2, h3, rfl⟩
  | cons a rest ih =>
    obtain ⟨ha1, ha2, ha3, hrest⟩ := h
    exact ⟨ha1, ha2, ha3, ih hrest⟩

lemma pathOk_spec {s t : String} {steps : List PathStep}
    (h : pathOk s steps t) (hne : steps ≠ []) :
    (steps.map PathStep.fromStop).head? = some s ∧
    (steps.map PathStep.toStop).getLast? = some t ∧
    steps.Chain' (fun a b => a.toStop = b.fromStop) ∧
    ∀ st ∈ steps, st.fromStop ∈ st.route.stops ∧ st.toStop ∈ st.route.stops := by
  induction steps generalizing s with
  | nil => exact absurd rfl hne
  | cons a rest ih =>
    obtain ⟨ha1, ha2, ha3, hrest⟩ := h
    match rest, hrest with
    | [], hrest =>
      have ht : a.toStop = t := hrest
      refine ⟨by simp [ha1], by simp [ht], List.chain'_singleton a, ?_⟩
      intro st hst
      rw [List.mem_singleton] at hst
      subst hst
      exact ⟨ha2, ha3⟩
    | b :: rest', hrest =>
      obtain ⟨ihh, iht, ihc, ihm⟩ := ih hrest (by simp)
      refine ⟨by simp [ha1], ?_, ?_, ?_⟩
      · rw [List.map_cons, List.map_cons, List.getLast?_cons_cons, ← List.map_cons]
        exact iht
      · rw [List.chain'_cons]
        exact ⟨(hrest.1).symm, ihc⟩
      · intro st hst
        rcases List.mem_cons.mp hst with hst | hst
        · subst hst; exact ⟨ha2, ha3⟩
        · exact ihm st hst

/-! ### Lemmas about the expansion of one route -/

lemma expandStops_entryOk {route : BusRoute} {currentStop start : String} {path : List PathStep}
    (hpath : pathOk start path currentStop) (hcur : currentStop ∈ route.stops)
    (hlen : path.length < MAX_TRANSFERS)
    (hids : (path.map (fun st => st.route.id)).Nodup)
    (hused : route.id ∉ path.map (fun st => st.route.id)) :
    ∀ (stops : List String) (visited : List String) (queue : List QueueEntry),
      (∀ x ∈ stops, x ∈ route.stops) →
      (∀ e ∈ queue, entryOk start e) →
      ∀ e ∈ (expandStops route currentStop path stops visited queue).2, entryOk start e := by
  intro stops
  induction stops with
  | nil => intro visited queue _ hq e he; exact hq e he
  | cons x rest ih =>
    intro visited queue hstops hq e he
    rw [expandStops] at he
    by_cases hx : x ∈ visited
    · rw [if_pos hx] at he
      exact ih visited queue (fun y hy => hstops y (List.mem_cons_of_mem _ hy)) hq e he
    · rw [if_neg hx] at he
      refine ih _ _ (fun y hy => hstops y (List.mem_cons_of_mem _ hy)) ?_ e he
      intro e' he'
      rcases List.mem_append.mp he' with he' | he'
      · exact hq e' he'
      · rw [List.mem_singleton] at he'
        subst he'
        refine ⟨?_, ?_, ?_⟩
        · exact pathOk_append _ hpath rfl hcur (hstops x (List.mem_cons_self x rest))
        · simpa using hlen
        · rw [List.map_append, List.nodup_append]
          exact ⟨hids, List.nodup_singleton _, by simpa using hused⟩

lemma expandStops_measure (allRoutes : List BusRoute) {route : BusRoute}
    (hroute : ∀ x ∈ route.stops, x ∈ stopsUniverse allRoutes)
    (currentStop : String) (path : List PathStep) :
    ∀ (stops : List String) (visited : List String) (queue : List QueueEntry),
      (∀ x ∈ stops, x ∈ route.stops) →
      2 * ((stopsUniverse allRoutes) \
            (expandStops route currentStop path stops visited queue).1.toFinset).card +
          (expandStops route currentStop path stops visited queue).2.length ≤
        2 * ((stopsUniverse allRoutes) \ visited.toFinset).card + queue.length := by
  intro stops
  induction stops with
  | nil => intro visited queue _; rw [expandStops]
  | cons x rest ih =>
    intro visited queue hstops
    rw [expandStops]
    by_cases hx : x ∈ visited
    · rw [if_pos hx]
      exact ih visited queue (fun y hy => hstops y (List.mem_cons_of_mem _ hy))
    · rw [if_neg hx]
      refine le_trans (ih _ _ (fun y hy => hstops y (List.mem_cons_of_mem _ hy))) ?_
      have hxU : x ∈ stopsUniverse allRoutes \ visited.toFinset := by
        rw [Finset.mem_sdiff, List.mem_toFinset]
        exact ⟨hroute x (hstops x (List.mem_cons_self x rest)), hx⟩
      have hcard : ((stopsUniverse allRoutes) \ (x :: visited).toFinset).card =
          ((stopsUniverse allRoutes) \ visited.toFinset).card - 1 := by
        rw [List.toFinset_cons, Finset.sdiff_insert, Finset.card_erase_of_mem hxU]
      have hpos : 1 ≤ ((stopsUniverse allRoutes) \ visited.toFinset).card :=
        Finset.card_pos.mpr ⟨x, hxU⟩
      rw [hcard, List.length_append, List.length_singleton]
      omega

/-! ### Lemmas about one pass over the available routes -/


lemma processRoutes_extends_results (dest currentStop : String) (path : List PathStep) :
    ∀ (routes : List BusRoute) (visited : List String) (queue : List QueueEntry)
      (results : List SearchResult),
      results <+: (processRoutes dest currentStop path routes visited queue results).results := by
  intro routes
  induction routes with
  | nil => intro visited queue results; exact List.prefix_refl _
  | cons route rest ih =>
    intro visited queue results
    simp only [processRoutes]
    by_cases hA : (path.any fun step => step.route.id == route.id) = true
    · rw [if_pos hA]
      exact ih visited queue results
    · rw [if_neg hA]
      by_cases hC : route.stops.contains dest = true
      · rw [if_pos hC]
        simp only [List.length_append, List.length_singleton]
        by_cases h5 : 5 ≤ results.length + 1
        · rw [if_pos ⟨hC, h5⟩]
          exact List.prefix_append _ _
        · rw [if_neg (fun hcon => h5 hcon.2)]
          exact (List.prefix_append _ _).trans (ih _ _ _)
      · rw [if_neg hC, if_neg (fun hcon => hC hcon.1)]
        exact ih _ _ _

lemma processRoutes_length_mono (dest currentStop : String) (path : List PathStep)
    (routes : List BusRoute) (visited : List String) (queue : List QueueEntry)
    (results : List SearchResult) :
    results.length ≤
      (processRoutes dest currentStop path routes visited queue results).results.length :=
  (processRoutes_extends_results dest currentStop path routes visited queue results).length_le

lemma processRoutes_cap (dest currentStop : String) (path : List PathStep) :
    ∀ (routes : List BusRoute) (visited : List String) (queue : List QueueEntry)
      (results : List SearchResult), results.length < 5 →
      (processRoutes dest currentStop path routes visited queue results).results.length ≤ 5 := by
  intro routes
  induction routes with
  | nil => intro visited queue results h; exact Nat.le_of_lt h
  | cons route rest ih =>
    intro visited queue results h
    simp only [processRoutes]
    by_cases hA : (path.any fun step => step.route.id == route.id) = true
    · rw [if_pos hA]
      exact ih visited queue results h
    · rw [if_neg hA]
      by_cases hC : route.stops.contains dest = true
      · rw [if_pos hC]
        simp only [List.length_append, List.length_singleton]
        by_cases h5 : 5 ≤ results.length + 1
        · rw [if_pos ⟨hC, h5⟩]
          simp only [List.length_append, List.length_singleton]
          omega
        · rw [if_neg (fun hcon => h5 hcon.2)]
          refine ih _ _ _ ?_
          simp only [List.length_append, List.length_singleton]
          omega
      · rw [if_neg hC, if_neg (fun hcon => hC hcon.1)]
        exact ih _ _ _ h

lemma processRoutes_ok {start : String} (dest currentStop : String) (path : List PathStep)
    (hpath : pathOk start path currentStop) (hlen : path.length ≤ MAX_TRANSFERS)
    (hids : (path.map (fun st => st.route.id)).Nodup) :
    ∀ (routes : List BusRoute) (visited : List String) (queue : List QueueEntry)
      (results : List SearchResult),
      (∀ r ∈ routes, currentStop ∈ r.stops) →
      (∀ e ∈ queue, entryOk start e) →
      (∀ x ∈ results, resultOk start dest x) →
      (∀ e ∈ (processRoutes dest currentStop path routes visited queue results).queue,
        entryOk start e) ∧
      (∀ x ∈ (processRoutes dest currentStop path routes visited queue results).results,
        resultOk start dest x) := by
  intro routes
  induction routes with
  | nil => intro visited queue results _ hq hr; exact ⟨hq, hr⟩
  | cons route rest ih =>
    intro visited queue results hroutes hq hr
    have hcur : currentStop ∈ route.stops := hroutes route (List.mem_cons_self _ _)
    simp only [processRoutes]
    by_cases hA : (path.any fun step => step.route.id == route.id) = true
    · rw [if_pos hA]
      exact ih visited queue results (fun r hrr => hroutes r (List.mem_cons_of_mem _ hrr)) hq hr
    · rw [if_neg hA]
      have hA' : (path.any fun step => step.route.id == route.id) = false := by
        simpa using hA
      have hused : route.id ∉ path.map (fun st => st.route.id) := by
        intro hmem
        obtain ⟨st, hst, heq⟩ := List.mem_map.mp hmem
        have hne := List.any_eq_false.mp hA' st hst
        simp only [beq_iff_eq] at hne
        exact hne heq
      have hvq : ∀ (visited' : List String) (queue' : List QueueEntry),
          (∀ e ∈ queue', entryOk start e) →
          ∀ e ∈ (if path.length < MAX_TRANSFERS then
              expandStops route currentStop path route.stops visited' queue'
            else (visited', queue')).2, entryOk start e := by
        intro visited' queue' hq' e he
        by_cases hT : path.length < MAX_TRANSFERS
        · rw [if_pos hT] at he
          exact expandStops_entryOk hpath hcur hT hids hused route.stops visited' queue'
            (fun x hx => hx) hq' e he
        · rw [if_neg hT] at he
          exact hq' e he
      by_cases hC : route.stops.contains dest = true
      · have hdest : dest ∈ route.stops := List.elem_iff.mp hC
        have hnew : resultOk start dest ⟨path ++ [⟨route, currentStop, dest⟩],
            path.length + 1 - 1⟩ := by
          refine ⟨by simp, pathOk_append _ hpath rfl hcur hdest, ?_, ?_⟩
          · simp only [List.length_append, List.length_singleton]
            omega
          · rw [List.map_append, List.nodup_append]
            refine ⟨hids, List.nodup_singleton _, ?_⟩
            simpa [List.disjoint_singleton] using hused
        have hr' : ∀ x ∈ results ++ [(⟨path ++ [⟨route, currentStop, dest⟩],
            path.length + 1 - 1⟩ : SearchResult)],
            resultOk start dest x := by
          intro x hx
          rcases List.mem_append.mp hx with hx | hx
          · exact hr x hx
          · rw [List.mem_singleton] at hx; subst hx; exact hnew
        rw [if_pos hC]
        simp only [List.length_append, List.length_singleton]
        by_cases h5 : 5 ≤ results.length + 1
        · rw [if_pos ⟨hC, h5⟩]
          exact ⟨hq, hr'⟩
        · rw [if_neg (fun hcon => h5 hcon.2)]
          exact ih _ _ _ (fun r hrr => hroutes r (List.mem_cons_of_mem _ hrr))
            (hvq visited queue hq) hr'
      · rw [if_neg hC, if_neg (fun hcon => hC hcon.1)]
        exact ih _ _ _ (fun r hrr => hroutes r (List.mem_cons_of_mem _ hrr))
          (hvq visited queue hq) hr

lemma processRoutes_measure (allRoutes : List BusRoute) (dest currentStop : String)
    (path : List PathStep) :
    ∀ (routes : List BusRoute) (visited : List String) (queue : List QueueEntry)
      (results : List SearchResult),
      (∀ r ∈ routes, ∀ x ∈ r.stops, x ∈ stopsUniverse allRoutes) →
      bfsMeasure allRoutes (processRoutes dest currentStop path routes visited queue results).queue
          (processRoutes dest currentStop path routes visited queue results).visited ≤
        bfsMeasure allRoutes queue visited := by
  intro routes
  induction routes with
  | nil => intro visited queue results _; exact le_refl _
  | cons route rest ih =>
    intro visited queue results hroutes
    simp only [processRoutes]
    by_cases hA : (path.any fun step => step.route.id == route.id) = true
    · rw [if_pos hA]
      exact ih visited queue results (fun r hrr => hroutes r (List.mem_cons_of_mem _ hrr))
    · rw [if_neg hA]
      have hvq : bfsMeasure allRoutes
          (if path.length < MAX_TRANSFERS then
              expandStops route currentStop path route.stops visited queue
            else (visited, queue)).2
          (if path.length < MAX_TRANSFERS then
              expandStops route currentStop path route.stops visited queue
            else (visited, queue)).1 ≤ bfsMeasure allRoutes queue visited := by
        by_cases hT : path.length < MAX_TRANSFERS
        · rw [if_pos hT]
          exact expandStops_measure allRoutes
            (hroutes route (List.mem_cons_self _ _)) currentStop path
            route.stops visited queue (fun x hx => hx)
        · rw [if_neg hT]
      by_cases hC : route.stops.contains dest = true
      · rw [if_pos hC]
        simp only [List.length_append, List.length_singleton]
        by_cases h5 : 5 ≤ results.length + 1
        · rw [if_pos ⟨hC, h5⟩]
        · rw [if_neg (fun hcon => h5 hcon.2)]
          exact le_trans (ih _ _ _ (fun r hrr => hroutes r (List.mem_cons_of_mem _ hrr))) hvq
      · rw [if_neg hC, if_neg (fun hcon => hC hcon.1)]
        exact le_trans (ih _ _ _ (fun r hrr => hroutes r (List.mem_cons_of_mem _ hrr))) hvq

/-! ### Lemmas about the queue loop -/

lemma filter_stops_universe (allRoutes : List BusRoute) (stop : String) :
    ∀ r ∈ allRoutes.filter (fun r => r.stops.contains stop),
      ∀ x ∈ r.stops, x ∈ stopsUniverse allRoutes := by
  intro r hr x hx
  rw [stopsUniverse, List.mem_toFinset, List.mem_flatMap]
  exact ⟨r, List.mem_of_mem_filter hr, hx⟩

lemma bfsLoopFuel_ok (allRoutes : List BusRoute) (start dest : String) :
    ∀ (fuel : Nat) (queue : List QueueEntry) (visited : List String)
      (results out : List SearchResult),
      (∀ e ∈ queue, entryOk start e) →
      (∀ x ∈ results, resultOk start dest x) →
      results.length < 5 →
      bfsLoopFuel allRoutes dest fuel queue visited results = some out →
      (∀ x ∈ out, resultOk start dest x) ∧ out.length ≤ 5 := by
  intro fuel
  induction fuel with
  | zero =>
    intro queue visited results out _ _ _ h
    simp [bfsLoopFuel] at h
  | succ n ih =>
    intro queue visited results out hq hr hlen h
    match queue with
    | [] =>
      simp only [bfsLoopFuel, Option.some.injEq] at h
      subst h
      exact ⟨hr, Nat.le_of_lt hlen⟩
    | entry :: rest =>
      simp only [bfsLoopFuel] at h
      by_cases hB : MAX_TRANSFERS + 1 < entry.path.length
      · rw [if_pos hB] at h
        obtain rfl := Option.some.inj h
        exact ⟨hr, Nat.le_of_lt hlen⟩
      · rw [if_neg hB] at h
        have hentry := hq entry (List.mem_cons_self _ _)
        rw [entryOk] at hentry
        obtain ⟨hp, hl, hn⟩ := hentry
        have hroutes : ∀ r ∈ allRoutes.filter (fun r => r.stops.contains entry.currentStop),
            entry.currentStop ∈ r.stops :=
          fun r hrr => List.elem_iff.mp (List.mem_filter.mp hrr).2
        have hrest : ∀ e ∈ rest, entryOk start e :=
          fun e he => hq e (List.mem_cons_of_mem _ he)
        have hok := processRoutes_ok dest entry.currentStop entry.path hp hl hn
          (allRoutes.filter (fun r => r.stops.contains entry.currentStop)) visited rest results
          hroutes hrest hr
        have hcap := processRoutes_cap dest entry.currentStop entry.path
          (allRoutes.filter (fun r => r.stops.contains entry.currentStop)) visited rest results
          hlen
        by_cases h5 : 5 ≤ (processRoutes dest entry.currentStop entry.path
            (allRoutes.filter (fun r => r.stops.contains entry.currentStop)) visited rest
            results).results.length
        · rw [if_pos h5] at h
          obtain rfl := Option.some.inj h
          exact ⟨hok.2, hcap⟩
        · rw [if_neg h5] at h
          exact ih _ _ _ _ hok.1 hok.2 (by omega) h

lemma bfsLoopFuel_extends_results (allRoutes : List BusRoute) (dest : String) :
    ∀ (fuel : Nat) (queue : List QueueEntry) (visited : List String)
      (results out : List SearchResult),
      bfsLoopFuel allRoutes dest fuel queue visited results = some out →
      results <+: out := by
  intro fuel
  induction fuel with
  | zero => intro q v r out h; simp [bfsLoopFuel] at h
  | succ n ih =>
    intro q v r out h
    match q with
    | [] =>
      simp only [bfsLoopFuel, Option.some.injEq] at h
      subst h
      exact List.prefix_refl _
    | entry :: rest =>
      simp only [bfsLoopFuel] at h
      by_cases hB : MAX_TRANSFERS + 1 < entry.path.length
      · rw [if_pos hB] at h
        obtain rfl := Option.some.inj h
        exact List.prefix_refl _
      · rw [if_neg hB] at h
        by_cases h5 : 5 ≤ (processRoutes dest entry.currentStop entry.path
            (allRoutes.filter (fun r => r.stops.contains entry.currentStop)) v rest
            r).results.length
        · rw [if_pos h5] at h
          obtain rfl := Option.some.inj h
          exact processRoutes_extends_results _ _ _ _ _ _ _
        · rw [if_neg h5] at h
          exact (processRoutes_extends_results _ _ _ _ _ _ _).trans (ih _ _ _ _ h)

lemma bfsLoopFuel_isSome (allRoutes : List BusRoute) (dest : String) :
    ∀ (fuel : Nat) (queue : List QueueEntry) (visited : List String)
      (results : List SearchResult),
      bfsMeasure allRoutes queue visited < fuel →
      (bfsLoopFuel allRoutes dest fuel queue visited results).isSome = true := by
  intro fuel
  induction fuel with
  | zero => intro q v r h; exact absurd h (Nat.not_lt_zero _)
  | succ n ih =>
    intro q v r h
    match q with
    | [] => simp [bfsLoopFuel]
    | entry :: rest =>
      simp only [bfsLoopFuel]
      by_cases hB : MAX_TRANSFERS + 1 < entry.path.length
      · rw [if_pos hB]
        rfl
      · rw [if_neg hB]
        by_cases h5 : 5 ≤ (processRoutes dest entry.currentStop entry.path
            (allRoutes.filter (fun r => r.stops.contains entry.currentStop)) v rest
            r).results.length
        · rw [if_pos h5]
          rfl
        · rw [if_neg h5]
          refine ih _ _ _ ?_
          have hmeas := processRoutes_measure allRoutes dest entry.currentStop entry.path
            (allRoutes.filter (fun r => r.stops.contains entry.currentStop)) v rest r
            (filter_stops_universe allRoutes entry.currentStop)
          have hq : bfsMeasure allRoutes (entry :: rest) v =
              bfsMeasure allRoutes rest v + 1 := by
            simp only [bfsMeasure, List.length_cons]
            omega
          omega

lemma bfsLoopFuel_stable (allRoutes : List BusRoute) (dest : String) :
    ∀ (fuel fuel2 : Nat) (queue : List QueueEntry) (visited : List String)
      (results : List SearchResult),
      bfsMeasure allRoutes queue visited < fuel →
      bfsMeasure allRoutes queue visited < fuel2 →
      bfsLoopFuel allRoutes dest fuel queue visited results =
        bfsLoopFuel allRoutes dest fuel2 queue visited results := by
  intro fuel
  induction fuel with
  | zero => intro fuel2 q v r h _; exact absurd h (Nat.not_lt_zero _)
  | succ n ih =>
    intro fuel2 q v r h h2
    obtain ⟨m, rfl⟩ : ∃ m, fuel2 = m + 1 := ⟨fuel2 - 1, by omega⟩
    match q with
    | [] => simp [bfsLoopFuel]
    | entry :: rest =>
      simp only [bfsLoopFuel]
      by_cases hB : MAX_TRANSFERS + 1 < entry.path.length
      · rw [if_pos hB, if_pos hB]
      · rw [if_neg hB, if_neg hB]
        by_cases h5 : 5 ≤ (processRoutes dest entry.currentStop entry.path
            (allRoutes.filter (fun r => r.stops.contains entry.currentStop)) v rest
            r).results.length
        · rw [if_pos h5, if_pos h5]
        · rw [if_neg h5, if_neg h5]
          have hmeas := processRoutes_measure allRoutes dest entry.currentStop entry.path
            (allRoutes.filter (fun r => r.stops.contains entry.currentStop)) v rest r
            (filter_stops_universe allRoutes entry.currentStop)
          have hq : bfsMeasure allRoutes (entry :: rest) v =
              bfsMeasure allRoutes rest v + 1 := by
            simp only [bfsMeasure, List.length_cons]
            omega
          exact ih m _ _ _ (by omega) (by omega)

lemma bfsMeasure_init_lt (allRoutes : List BusRoute) (start : String) :
    bfsMeasure allRoutes [⟨start, []⟩] [start] < bfsFuel allRoutes := by
  have h : (stopsUniverse allRoutes \ [start].toFinset).card ≤ (stopsUniverse allRoutes).card :=
    Finset.card_le_card Finset.sdiff_subset
  simp only [bfsMeasure, bfsFuel, List.length_singleton]
  omega

lemma bfsCollect_spec (allRoutes : List BusRoute) (start dest : String) :
    bfsLoopFuel allRoutes dest (bfsFuel allRoutes) [⟨start, []⟩] [start] [] =
      some (bfsCollect allRoutes start dest) := by
  have h := bfsLoopFuel_isSome allRoutes dest (bfsFuel allRoutes) [⟨start, []⟩] [start] []
    (bfsMeasure_init_lt allRoutes start)
  obtain ⟨out, hout⟩ := Option.isSome_iff_exists.mp h
  rw [hout]
  unfold bfsCollect
  rw [hout]
  rfl

/-! ### Stability of the embedded sort -/

lemma filter_orderedInsert {α : Type _} (r : α → α → Prop) [DecidableRel r] (p : α → Bool)
    (x : α) (l : List α) (h : p x = true → ∀ y ∈ l, p y = true → r x y) :
    (l.orderedInsert r x).filter p =
      if p x then x :: l.filter p else l.filter p := by
  rw [List.orderedInsert_eq_take_drop, List.filter_append]
  by_cases hx : p x = true
  · rw [if_pos hx]
    have htake : (l.takeWhile fun b => decide ¬r x b).filter p = [] := by
      rw [List.filter_eq_nil_iff]
      intro a ha hpa
      have hdec : (decide ¬r x a) = true := List.all_eq_true.mp List.all_takeWhile a ha
      have hsub := List.takeWhile_sublist (l := l) (fun b => decide ¬r x b)
      exact (of_decide_eq_true hdec) (h hx a (hsub.subset ha) hpa)
    rw [htake, List.nil_append, List.filter_cons, if_pos hx]
    have hdrop : l.filter p = (l.dropWhile fun b => decide ¬r x b).filter p := by
      conv_lhs => rw [← List.takeWhile_append_dropWhile (p := fun b => decide ¬r x b) (l := l)]
      rw [List.filter_append, htake, List.nil_append]
    rw [hdrop]
  · rw [if_neg hx, List.filter_cons, if_neg hx, ← List.filter_append,
      List.takeWhile_append_dropWhile]

lemma filter_insertionSort {α : Type _} (r : α → α → Prop) [DecidableRel r] (p : α → Bool)
    (hp : ∀ a b, p a = true → p b = true → r a b) :
    ∀ l : List α, (l.insertionSort r).filter p = l.filter p := by
  intro l
  induction l with
  | nil => rfl
  | cons a l ih =>
    rw [List.insertionSort,
      filter_orderedInsert r p a _ (fun hpa y _ hpy => hp a y hpa hpy),
      List.filter_cons]
    by_cases hpa : p a = true
    · rw [if_pos hpa, if_pos hpa, ih]
    · rw [if_neg hpa, if_neg hpa, ih]

/-! ### Consequences for `performBFS` -/

lemma performBFS_resultOk (allRoutes : List BusRoute) (start dest : String) :
    (∀ x ∈ performBFS allRoutes start dest, resultOk start dest x) ∧
      (performBFS allRoutes start dest).length ≤ 5 := by
  have hq : ∀ e ∈ [(⟨start, []⟩ : QueueEntry)], entryOk start e := by
    intro e he
    rw [List.mem_singleton] at he
    subst he
    rw [entryOk]
    exact ⟨rfl, by simp [MAX_TRANSFERS], List.nodup_nil⟩
  have hr : ∀ x ∈ ([] : List SearchResult), resultOk start dest x := by
    intro x hx
    exact absurd hx (List.not_mem_nil x)
  have h := bfsLoopFuel_ok allRoutes start dest (bfsFuel allRoutes) [⟨start, []⟩] [start] []
    (bfsCollect allRoutes start dest) hq hr (by decide) (bfsCollect_spec allRoutes start dest)
  constructor
  · intro x hx
    rw [performBFS, sortResults, List.mem_insertionSort] at hx
    exact h.1 x hx
  · rw [performBFS, sortResults, List.length_insertionSort]
    exact h.2

lemma processRoutes_emits (dest currentStop : String) :
    ∀ (routes : List BusRoute) (visited : List String) (queue : List QueueEntry),
      routes ≠ [] → (∀ r ∈ routes, r.stops.contains dest = true) →
      1 ≤ (processRoutes dest currentStop [] routes visited queue []).results.length := by
  intro routes visited queue hne hall
  match routes with
  | route :: rest =>
    have hC : route.stops.contains dest = true := hall route (List.mem_cons_self _ _)
    simp only [processRoutes]
    rw [if_neg (by simp)]
    rw [if_pos hC]
    split
    · simp
    · exact le_trans (by simp) (processRoutes_length_mono _ _ _ _ _ _ _)

lemma bfsCollect_self_nonempty (allRoutes : List BusRoute) (s : String)
    (r0 : BusRoute) (hr0 : r0 ∈ allRoutes) (hs : s ∈ r0.stops) :
    1 ≤ (bfsCollect allRoutes s s).length := by
  have hc := bfsCollect_spec allRoutes s s
  obtain ⟨m, hm⟩ : ∃ m, bfsFuel allRoutes = m + 1 + 1 :=
    ⟨2 * (stopsUniverse allRoutes).card, by unfold bfsFuel; omega⟩
  rw [hm] at hc
  simp only [bfsLoopFuel, List.length_nil] at hc
  rw [if_neg (Nat.not_lt_zero _)] at hc
  have hmem : r0 ∈ allRoutes.filter (fun r => r.stops.contains s) :=
    List.mem_filter.mpr ⟨hr0, List.elem_iff.mpr hs⟩
  have hemit := processRoutes_emits s s (allRoutes.filter (fun r => r.stops.contains s))
    [s] [] (List.ne_nil_of_mem hmem) (fun r hr => (List.mem_filter.mp hr).2)
  by_cases h5 : 5 ≤ (processRoutes s s []
      (allRoutes.filter (fun r => r.stops.contains s)) [s] [] []).results.length
  · rw [if_pos h5] at hc
    rw [← Option.some.inj hc]
    exact hemit
  · rw [if_neg h5] at hc
    have hpre := bfsLoopFuel_extends_results allRoutes s _ _ _ _ _ hc
    have := hpre.length_le
    omega

/-! ### Claim C1 -/

/-- C1 counterexample: on the network `{routes 1:[X,Y], 2:[Y,Z]}` the
search from `X` to `Y` returns two results, not exactly one as claimed:
a degenerate second itinerary `[(1,X,Y),(2,Y,Y)]` is also emitted. -/
theorem C1_counterexample_two_results :
    (performBFS demoRoutes "X" "Y").length = 2 := by decide

/-- C1 (amended): on the network `{routes 1:[X,Y], 2:[Y,Z]}` the search
from `X` to `Y` returns exactly two results: first `[(1,X,Y)]` with
transferCount 0, then the degenerate `[(1,X,Y),(2,Y,Y)]` with
transferCount 1. -/
theorem C1_amended_search_X_to_Y :
    performBFS demoRoutes "X" "Y" =
      [⟨[⟨routeXY, "X", "Y"⟩], 0⟩,
       ⟨[⟨routeXY, "X", "Y"⟩, ⟨routeYZ, "Y", "Y"⟩], 1⟩] := by decide

/-! ### Claim C2 -/

/-- C2 counterexample: on the single route `1:[X,Y]`, which visits no
stop twice, the search from `X` to `X` is not empty: it returns the
degenerate zero-transfer result `[(1,X,X)]`. -/
theorem C2_counterexample_self_search_nonempty :
    performBFS [routeXY] "X" "X" = [⟨[⟨routeXY, "X", "X"⟩], 0⟩] := by decide

/-- C2 (amended): for every route collection and stop `s`, the search
with start = end = s returns the empty list exactly when no route's stop
list contains `s`; whenever any route passes through `s` (no loop
needed) the search returns at least one result. -/
theorem C2_amended_self_search_empty_iff (allRoutes : List BusRoute) (s : String) :
    performBFS allRoutes s s = [] ↔ ∀ r ∈ allRoutes, s ∉ r.stops := by
  constructor
  · intro h r hr hs
    have h1 := bfsCollect_self_nonempty allRoutes s r hr hs
    have h2 : (performBFS allRoutes s s).length = (bfsCollect allRoutes s s).length := by
      rw [performBFS, sortResults]
      exact List.length_insertionSort _ _
    rw [h] at h2
    simp only [List.length_nil] at h2
    omega
  · intro h
    have hf : allRoutes.filter (fun r => decide (s ∈ r.stops)) = [] :=
      List.filter_eq_nil_iff.mpr (fun r hr hc => h r hr (of_decide_eq_true hc))
    obtain ⟨m, hm⟩ : ∃ m, bfsFuel allRoutes = m + 1 + 1 :=
      ⟨2 * (stopsUniverse allRoutes).card, by unfold bfsFuel; omega⟩
    have hrun : bfsLoopFuel allRoutes s (bfsFuel allRoutes) [⟨s, []⟩] [s] [] = some [] := by
      rw [hm]
      simp +decide [bfsLoopFuel, hf, processRoutes]
    have hcs := bfsCollect_spec allRoutes s s
    rw [hrun] at hcs
    rw [performBFS, ← Option.some.inj hcs]
    rfl

/-! ### Claim C4 -/

/-- C4: the returned list is sorted non-decreasing by transferCount, and
the sort is stable: for every transfer count `k`, the results with that
count appear exactly as in the discovery-order list `bfsCollect`. -/
theorem C4_sorted_and_stable (allRoutes : List BusRoute) (start dest : String) :
    (performBFS allRoutes start dest).Pairwise
      (fun a b => a.transferCount ≤ b.transferCount) ∧
    ∀ k : Nat, (performBFS allRoutes start dest).filter (fun r => r.transferCount == k) =
      (bfsCollect allRoutes start dest).filter (fun r => r.transferCount == k) := by
  constructor
  · rw [performBFS, sortResults]
    haveI h1 : IsTotal SearchResult (fun a b => a.transferCount ≤ b.transferCount) :=
      ⟨fun a b => Nat.le_total _ _⟩
    haveI h2 : IsTrans SearchResult (fun a b => a.transferCount ≤ b.transferCount) :=
      ⟨fun _ _ _ ha hb => Nat.le_trans ha hb⟩
    exact List.sorted_insertionSort _ _
  · intro k
    rw [performBFS, sortResults]
    refine filter_insertionSort _ _ ?_ _
    intro a b ha hb
    have ha2 : a.transferCount = k := by simpa using ha
    have hb2 : b.transferCount = k := by simpa using hb
    simp [ha2, hb2]

/-! ### Claim C5 -/

/-- C5: the search never returns more than 5 results, and no result has
more than `MAX_TRANSFERS + 1 = 3` steps. -/
theorem C5_result_and_step_caps (allRoutes : List BusRoute) (start dest : String) :
    (performBFS allRoutes start dest).length ≤ 5 ∧
    ∀ res ∈ performBFS allRoutes start dest, res.steps.length ≤ MAX_TRANSFERS + 1 := by
  refine ⟨(performBFS_resultOk allRoutes start dest).2, ?_⟩
  intro res hres
  have h := (performBFS_resultOk allRoutes start dest).1 res hres
  rw [resultOk] at h
  exact h.2.2.1

/-- C5 witness: concrete instantiation on the demonstration network. -/
theorem C5_witness :
    (performBFS demoRoutes "X" "Z").length ≤ 5 ∧
    (⟨[⟨routeXY, "X", "Y"⟩, ⟨routeYZ, "Y", "Z"⟩], 1⟩ : SearchResult).steps.length ≤
      MAX_TRANSFERS + 1 :=
  ⟨(C5_result_and_step_caps demoRoutes "X" "Z").1,
   (C5_result_and_step_caps demoRoutes "X" "Z").2 _ (by decide)⟩

/-! ### Claim C6 -/

/-- C6: no returned itinerary rides two steps on routes with the same
route id. -/
theorem C6_no_route_reused (allRoutes : List BusRoute) (start dest : String) :
    ∀ res ∈ performBFS allRoutes start dest,
      (res.steps.map (fun st => st.route.id)).Nodup := by
  intro res hres
  have h := (performBFS_resultOk allRoutes start dest).1 res hres
  rw [resultOk] at h
  exact h.2.2.2

/-- C6 witness: concrete instantiation on the demonstration network. -/
theorem C6_witness :
    ((⟨[⟨routeXY, "X", "Y"⟩, ⟨routeYZ, "Y", "Z"⟩], 1⟩ : SearchResult).steps.map
      (fun st => st.route.id)).Nodup :=
  C6_no_route_reused demoRoutes "X" "Z" _ (by decide)

/-! ### Claim C9 -/

/-- C9: the queue loop always terminates: any fuel of at least
`bfsFuel = 2 * (number of distinct stops) + 2` makes the loop complete
with the search's results; enqueues are bounded because every enqueue
first moves a fresh stop into the visited set. -/
theorem C9_loop_terminates_within_fuel (allRoutes : List BusRoute) (start dest : String)
    (fuel : Nat) (h : bfsFuel allRoutes ≤ fuel) :
    bfsLoopFuel allRoutes dest fuel [⟨start, []⟩] [start] [] =
      some (bfsCollect allRoutes start dest) := by
  rw [bfsLoopFuel_stable allRoutes dest fuel (bfsFuel allRoutes) [⟨start, []⟩] [start] []
    (lt_of_lt_of_le (bfsMeasure_init_lt allRoutes start) h) (bfsMeasure_init_lt allRoutes start)]
  exact bfsCollect_spec allRoutes start dest

/-- C9 witness: concrete instantiation on the demonstration network. -/
theorem C9_witness :
    bfsFuel demoRoutes ≤ 10 ∧
    bfsLoopFuel demoRoutes "Z" 10 [⟨"X", []⟩] ["X"] [] =
      some (bfsCollect demoRoutes "X" "Z") :=
  ⟨by decide, C9_loop_terminates_within_fuel demoRoutes "X" "Z" 10 (by decide)⟩

/-! ### Claim C10 -/

/-- C10: every returned result is a connected itinerary: nonempty, the
first step leaves `start`, the last step arrives at `dest`, consecutive
steps share their intermediate stop, and each step's endpoints lie on
its route's stop list. -/
theorem C10_results_connected (allRoutes : List BusRoute) (start dest : String) :
    ∀ res ∈ performBFS allRoutes start dest,
      res.steps ≠ [] ∧
      (res.steps.map PathStep.fromStop).head? = some start ∧
      (res.steps.map PathStep.toStop).getLast? = some dest ∧
      res.steps.Chain' (fun a b => a.toStop = b.fromStop) ∧
      ∀ st ∈ res.steps, st.fromStop ∈ st.route.stops ∧ st.toStop ∈ st.route.stops := by
  intro res hres
  have h := (performBFS_resultOk allRoutes start dest).1 res hres
  rw [resultOk] at h
  obtain ⟨hne, hp, -, -⟩ := h
  obtain ⟨h1, h2, h3, h4⟩ := pathOk_spec hp hne
  exact ⟨hne, h1, h2, h3, h4⟩

/-- C10 witness: concrete instantiation on the demonstration network. -/
theorem C10_witness :
    (⟨[⟨routeXY, "X", "Y"⟩, ⟨routeYZ, "Y", "Z"⟩], 1⟩ : SearchResult) ∈
        performBFS demoRoutes "X" "Z" ∧
      ((⟨[⟨routeXY, "X", "Y"⟩, ⟨routeYZ, "Y", "Z"⟩], 1⟩ : SearchResult).steps ≠ [] ∧
      ((⟨[⟨routeXY, "X", "Y"⟩, ⟨routeYZ, "Y", "Z"⟩], 1⟩ : SearchResult).steps.map
        PathStep.fromStop).head? = some "X" ∧
      ((⟨[⟨routeXY, "X", "Y"⟩, ⟨routeYZ, "Y", "Z"⟩], 1⟩ : SearchResult).steps.map
        PathStep.toStop).getLast? = some "Z" ∧
      (⟨[⟨routeXY, "X", "Y"⟩, ⟨routeYZ, "Y", "Z"⟩], 1⟩ : SearchResult).steps.Chain'
        (fun a b => a.toStop = b.fromStop) ∧
      ∀ st ∈ (⟨[⟨routeXY, "X", "Y"⟩, ⟨routeYZ, "Y", "Z"⟩], 1⟩ : SearchResult).steps,
        st.fromStop ∈ st.route.stops ∧ st.toStop ∈ st.route.stops) :=
  ⟨by decide, C10_results_connected demoRoutes "X" "Z" _ (by decide)⟩

/-! ### Lemmas about the candidate scan -/

lemma not_overlap_of_scan_reject {f : FoundStop} {name : String} {index : Nat}
    (hlen : name.length ≤ f.name.length)
    (hrej : ((decide (f.index ≤ index) && decide (index < f.index + f.name.length)) ||
        (decide (f.index < index + name.length) &&
          decide (index + name.length ≤ f.index + f.name.length))) = false) :
    ¬ rangesOverlap f ⟨name, index⟩ := by
  show ¬ (f.index < index + name.length ∧ index < f.index + f.name.length)
  rintro ⟨h1, h2⟩
  simp only [Bool.or_eq_false_iff, Bool.and_eq_false_iff, decide_eq_false_iff_not,
    not_lt, not_le] at hrej
  omega

lemma candidateScan_invariant (text : List Char) :
    ∀ (names : List String) (found : List FoundStop),
      names.Pairwise (fun a b => b.length ≤ a.length) →
      (∀ fs ∈ found, ∀ n ∈ names, n.length ≤ fs.name.length) →
      (∀ fs ∈ found, jsIndexOf text fs.name.toList = some fs.index) →
      found.Pairwise (fun a b => ¬ rangesOverlap a b) →
      (candidateScan text names found).Pairwise (fun a b => ¬ rangesOverlap a b) ∧
      (∀ fs ∈ candidateScan text names found,
        jsIndexOf text fs.name.toList = some fs.index) := by
  intro names
  induction names with
  | nil => intro found _ _ hidx hpw; exact ⟨hpw, hidx⟩
  | cons name rest ih =>
    intro found hsorted hdom hidx hpw
    have hsorted' := (List.pairwise_cons.mp hsorted).2
    have hhead := (List.pairwise_cons.mp hsorted).1
    rcases hmatch : jsIndexOf text name.toList with - | index
    · simp only [candidateScan, hmatch]
      exact ih found hsorted'
        (fun fs hfs n hn => hdom fs hfs n (List.mem_cons_of_mem _ hn)) hidx hpw
    · simp only [candidateScan, hmatch]
      by_cases hov : overlapsExisting found name index = true
      · rw [if_pos hov]
        exact ih found hsorted'
          (fun fs hfs n hn => hdom fs hfs n (List.mem_cons_of_mem _ hn)) hidx hpw
      · rw [if_neg hov]
        have hov' : overlapsExisting found name index = false := by
          simpa using hov
        rw [overlapsExisting] at hov'
        have hrej := List.any_eq_false.mp hov'
        refine ih (found ++ [⟨name, index⟩]) hsorted' ?_ ?_ ?_
        · intro fs hfs n hn
          rcases List.mem_append.mp hfs with hfs | hfs
          · exact hdom fs hfs n (List.mem_cons_of_mem _ hn)
          · rw [List.mem_singleton] at hfs
            subst hfs
            exact hhead n hn
        · intro fs hfs
          rcases List.mem_append.mp hfs with hfs | hfs
          · exact hidx fs hfs
          · rw [List.mem_singleton] at hfs
            subst hfs
            exact hmatch
        · rw [List.pairwise_append]
          refine ⟨hpw, List.pairwise_singleton _ _, ?_⟩
          intro a ha b hb
          rw [List.mem_singleton] at hb
          subst hb
          exact not_overlap_of_scan_reject
            (hdom a ha name (List.mem_cons_self _ _))
            (by simpa using hrej a ha)

lemma sortNamesDesc_sorted (names : List String) :
    (sortNamesDesc names).Pairwise (fun a b => b.length ≤ a.length) := by
  rw [sortNamesDesc]
  haveI h1 : IsTotal String (fun a b => b.length ≤ a.length) :=
    ⟨fun a b => Nat.le_total _ _⟩
  haveI h2 : IsTrans String (fun a b => b.length ≤ a.length) :=
    ⟨fun _ _ _ hab hbc => Nat.le_trans hbc hab⟩
  exact List.sorted_insertionSort _ _

/-! ### Claim C7 -/

/-- C7: longest-match with overlap exclusion.  The two spec scenarios
hold; in general the accepted candidates have pairwise non-overlapping
character ranges (possible because longer names are processed first),
and every accepted candidate is recorded at the first occurrence of its
name in the trimmed text. -/
theorem C7_longest_match_overlap_exclusion :
    acceptedCandidates "AB" ["A", "AB"] = [⟨"AB", 0⟩] ∧
    acceptedCandidates "abcd" ["abc", "bcd"] = [⟨"abc", 0⟩] ∧
    (∀ (text : String) (names : List String),
      (acceptedCandidates text names).Pairwise (fun a b => ¬ rangesOverlap a b)) ∧
    (∀ (text : String) (names : List String), ∀ c ∈ acceptedCandidates text names,
      jsIndexOf (jsTrim text.toList) c.name.toList = some c.index) := by
  refine ⟨by decide, by decide, ?_, ?_⟩
  · intro text names
    exact (candidateScan_invariant (jsTrim text.toList) (sortNamesDesc names) []
      (sortNamesDesc_sorted names) (by simp) (by simp) List.Pairwise.nil).1
  · intro text names c hc
    exact (candidateScan_invariant (jsTrim text.toList) (sortNamesDesc names) []
      (sortNamesDesc_sorted names) (by simp) (by simp) List.Pairwise.nil).2 c hc

/-- C7 witness: concrete instantiation of the first-occurrence part. -/
theorem C7_witness :
    (⟨"AB", 0⟩ : FoundStop) ∈ acceptedCandidates "AB" ["A", "AB"] ∧
    jsIndexOf (jsTrim ("AB" : String).toList) ("AB" : String).toList = some 0 :=
  ⟨by decide,
   C7_longest_match_overlap_exclusion.2.2.2 "AB" ["A", "AB"] ⟨"AB", 0⟩ (by decide)⟩

/-! ### Claim C3 -/

/-- C3: whenever the extractor accepts two or more candidates, the first
two in text order become start and end respectively; the origin-marker
check between them has identical branches and so never changes the
outcome. -/
theorem C3_first_two_by_position (text : String) (names : List String)
    (f s : FoundStop) (rest : List FoundStop)
    (h : sortByIndex (acceptedCandidates text names) = f :: s :: rest) :
    extractStopsFromText text names = some ⟨some f.name, some s.name⟩ := by
  simp only [extractStopsFromText, h, ite_self]

/-- C3 witness: concrete two-candidate extraction. -/
theorem C3_witness :
    sortByIndex (acceptedCandidates "AB CD" ["AB", "CD"]) =
        ⟨"AB", 0⟩ :: ⟨"CD", 3⟩ :: [] ∧
      extractStopsFromText "AB CD" ["AB", "CD"] = some ⟨some "AB", some "CD"⟩ :=
  ⟨by decide,
   C3_first_two_by_position "AB CD" ["AB", "CD"] ⟨"AB", 0⟩ ⟨"CD", 3⟩ [] (by decide)⟩

/-! ### Claim C8 -/

/-- C8 counterexample: with vocabulary `["A"]` and text `"z"` zero
candidates are accepted, and the extractor returns `none` (the literal
`return null` of the source), not an ExtractedQuery with both slots
unset. -/
theorem C8_counterexample_returns_null :
    acceptedCandidates "z" ["A"] = [] ∧
    extractStopsFromText "z" ["A"] = none ∧
    extractStopsFromText "z" ["A"] ≠ some ⟨none, none⟩ := by decide

/-- C8 (amended): the extractor is total and returns `none` (null)
exactly when zero candidates are accepted; in every other case it
returns a query object. -/
theorem C8_amended_none_iff_no_candidates (text : String) (names : List String) :
    extractStopsFromText text names = none ↔ acceptedCandidates text names = [] := by
  constructor
  · intro h
    rcases hs : sortByIndex (acceptedCandidates text names) with - | ⟨f, - | ⟨s, rest⟩⟩
    · have hlen := congrArg List.length hs
      rw [sortByIndex, List.length_insertionSort] at hlen
      exact List.length_eq_zero.mp (by simpa using hlen)
    · exfalso
      simp only [extractStopsFromText, hs] at h
      split at h <;> simp at h
    · exfalso
      simp only [extractStopsFromText, hs] at h
      split at h <;> simp at h
  · intro h
    simp [extractStopsFromText, h, sortByIndex]

end YBS
